import Mathlib

set_option maxRecDepth 8000

/-!
Verification model of the `langgraph-custom-llm` repository.

The TypeScript sources are embedded shallowly:

* strings are modelled as `List Char` (the `TextDecoder` byte-to-text step
  is modelled by taking stream chunks as already-decoded character
  sequences, so chunk partitions are at character granularity);
* `JSON.parse` is modelled by an executable recursive-descent parser over a
  `Json` inductive; JSON numbers are modelled as integers (the protocol's
  token counters are integral; float literals are outside the model and
  make the modelled parser fail);
* JavaScript exceptions inside a `try` block are modelled by explicit
  Boolean "threw" results; `undefined` field accesses are modelled with
  `Option Json`.

Sources modelled:
* `src/llm_client/StreamProcessor.ts` (`processStream`,
  `collectStreamResults`) and the identical inline logic of
  `LLMGatewayClient._streamResponseChunks` / `_generate`;
* `src/llm_client/ResponseParser.ts` (`parseToolCalls`) and the identical
  private `LLMGatewayClient.parseToolCalls`;
* `src/llm_client/MessageFormatter.ts` (`formatMessages`) and the identical
  `LLMGatewayClient.formatGatewayMessages`;
* `src/agent/state.ts` (`threadIdReducer`) and the `threadId` selection of
  `LLMGatewayClient` request building.
-/

/-- Characters of a JavaScript string. -/
abbrev Str := List Char

/-- JavaScript whitespace class (`\s` of the regexes and `String.trim`),
restricted to its ASCII members; the Unicode space characters play no role
in this code base. -/
def isWS (c : Char) : Bool :=
  c == ' ' || c == '\t' || c == '\n' || c == '\r' || c == '\x0b' || c == '\x0c'

/-- `String.prototype.trim()`: drop whitespace from both ends. -/
def jsTrim (l : Str) : Str :=
  ((l.dropWhile isWS).reverse.dropWhile isWS).reverse

/-- `true` when the string contains no newline character. -/
def noNL (l : Str) : Bool := l.all (fun c => ! (c == '\n'))

/-- `message.split("\n")` of JavaScript (an empty string gives `[""]`). -/
def splitNL : Str → List Str
  | [] => [[]]
  | c :: rest =>
    if c = '\n' then [] :: splitNL rest
    else
      match splitNL rest with
      | h :: t => (c :: h) :: t
      | [] => [[c]]

/-- `s.startsWith(p)`: `p` is a prefix of `s`.  The outer match examines
the pattern so that `strStartsWith s [] = true` holds definitionally. -/
def strStartsWith (s pat : Str) : Bool :=
  match pat with
  | [] => true
  | d :: p =>
    match s with
    | [] => false
    | c :: s2 => c == d && strStartsWith s2 p
termination_by structural pat

/-- Index of the first occurrence of `pat` in `s`
(`String.prototype.indexOf`), `none` when absent. -/
def findSub (pat : Str) : Str → Option Nat
  | [] => if strStartsWith [] pat then some 0 else none
  | c :: t =>
    if strStartsWith (c :: t) pat then some 0
    else (findSub pat t).map (· + 1)

/-- The character `{` (kept out of string literals). -/
def lbrace : Char := Char.ofNat 123

/-- The character `}` (kept out of string literals). -/
def rbrace : Char := Char.ofNat 125

/-- JSON values, as produced by `JSON.parse`.  Numbers are modelled as
integers (see the file comment).  Object member lists keep the textual
order; duplicate keys are resolved by `getField` taking the last binding,
as JavaScript object construction does. -/
inductive Json where
  | null : Json
  | bool : Bool → Json
  | num : Int → Json
  | str : Str → Json
  | arr : List Json → Json
  | obj : List (Str × Json) → Json

/-- Property access `j.k` on a parsed value: `some` when `j` is an object
with the member, `none` for JavaScript `undefined` (absent member or
non-object receiver). -/
def getField (j : Json) (k : Str) : Option Json :=
  match j with
  | .obj fields => fields.foldl (fun acc p => if p.1 = k then some p.2 else acc) none
  | _ => none

/-- `"k" in j`: member presence on an object. -/
def hasField (j : Json) (k : Str) : Bool :=
  match j with
  | .obj fields => fields.any (fun p => p.1 = k)
  | _ => false

/-- `typeof j === "object" && j !== null`. -/
def isObjectLike (j : Json) : Bool :=
  match j with
  | .obj _ => true
  | .arr _ => true
  | _ => false

/-- JavaScript truthiness of a parsed value. -/
def jsTruthy (j : Json) : Bool :=
  match j with
  | .null => false
  | .bool b => b
  | .num n => ! (n == 0)
  | .str s => ! s.isEmpty
  | .arr _ => true
  | .obj _ => true

/-- Truthiness of a possibly-`undefined` value. -/
def jsTruthyOpt (v : Option Json) : Bool :=
  match v with
  | some j => jsTruthy j
  | none => false

/-- `x || d` on a possibly-`undefined` value. -/
def jsOr (v : Option Json) (d : Json) : Json :=
  match v with
  | some j => if jsTruthy j then j else d
  | none => d

/-- Decimal digits of a natural number (fuel-driven helper). -/
def natDigits : Nat → Nat → Str
  | 0, _ => []
  | f + 1, n =>
    if n < 10 then [Char.ofNat (48 + n)]
    else natDigits f (n / 10) ++ [Char.ofNat (48 + n % 10)]

/-- Decimal rendering of an integer. -/
def intToStr (n : Int) : Str :=
  match n with
  | .ofNat m => natDigits (m + 1) m
  | .negSucc m => '-' :: natDigits (m + 2) (m + 1)

/-- Join with `,` (JavaScript `Array.prototype.toString`). -/
def joinComma : List Str → Str
  | [] => []
  | [x] => x
  | x :: rest => x ++ ',' :: joinComma rest

mutual
/-- String coercion of a value (`"" + j`). -/
def jsToStr : Json → Str
  | .null => ("null").data
  | .bool true => ("true").data
  | .bool false => ("false").data
  | .num n => intToStr n
  | .str s => s
  | .obj _ => "[object Object]".data
  | .arr xs => joinComma (jsElemList xs)

/-- Element renderings inside `Array.prototype.toString` (`null` renders
as the empty string there). -/
def jsElemList : List Json → List Str
  | [] => []
  | x :: xs =>
    (match x with
     | .null => []
     | y => jsToStr y) :: jsElemList xs
end

/-- String coercion of a possibly-`undefined` value
(`"" + undefined === "undefined"`). -/
def jsToStrOpt (v : Option Json) : Str :=
  match v with
  | some j => jsToStr j
  | none => "undefined".data

/-- JavaScript `+` on parsed values: numeric addition on two numbers,
string concatenation otherwise. -/
def jsAdd (a b : Json) : Json :=
  match a, b with
  | .num x, .num y => .num (x + y)
  | _, _ => .str (jsToStr a ++ jsToStr b)

/-- Whitespace accepted between JSON tokens by `JSON.parse`. -/
def isJsonWS (c : Char) : Bool :=
  c == ' ' || c == '\t' || c == '\n' || c == '\r'

/-- Skip inter-token whitespace. -/
def skipWs (s : Str) : Str := s.dropWhile isJsonWS

/-- ASCII digit test. -/
def isDigitCh (c : Char) : Bool := '0' ≤ c && c ≤ '9'

/-- Numeric value of a digit string. -/
def digitsToNat (l : Str) : Nat :=
  l.foldl (fun a c => a * 10 + (c.toNat - 48)) 0

/-- Hex digit value, `none` for a non-hex character. -/
def hexVal (c : Char) : Option Nat :=
  if '0' ≤ c ∧ c ≤ '9' then some (c.toNat - 48)
  else if 'a' ≤ c ∧ c ≤ 'f' then some (c.toNat - 87)
  else if 'A' ≤ c ∧ c ≤ 'F' then some (c.toNat - 55)
  else none

/-- Body of a JSON string literal after the opening quote; returns the
decoded characters and the input after the closing quote.  `\uXXXX`
escapes are decoded as single code points (surrogate-pair recombination is
outside the model). -/
def parseStringRest : Str → Option (Str × Str)
  | [] => none
  | '"' :: r => some ([], r)
  | '\\' :: 'u' :: a :: b :: c :: d :: r =>
    match hexVal a, hexVal b, hexVal c, hexVal d with
    | some ha, some hb, some hc, some hd =>
      (parseStringRest r).map
        (fun (p : Str × Str) =>
          (Char.ofNat (((ha * 16 + hb) * 16 + hc) * 16 + hd) :: p.1, p.2))
    | _, _, _, _ => none
  | '\\' :: e :: r =>
    (match e with
     | '"' => some '"'
     | '\\' => some '\\'
     | '/' => some '/'
     | 'b' => some '\x08'
     | 'f' => some '\x0c'
     | 'n' => some '\n'
     | 'r' => some '\r'
     | 't' => some '\t'
     | _ => none).bind
      (fun ch => (parseStringRest r).map (fun (p : Str × Str) => (ch :: p.1, p.2)))
  | c :: r =>
    if c.toNat < 32 then none
    else (parseStringRest r).map (fun (p : Str × Str) => (c :: p.1, p.2))

/-- A JSON integer literal starting at `s` (optional minus, no leading
zeros); fails on a fraction or exponent part (floats are outside the
model). -/
def parseNumber (s : Str) : Option (Json × Str) :=
  let (neg, body) :=
    match s with
    | '-' :: r => (true, r)
    | _ => (false, s)
  let ds := body.takeWhile isDigitCh
  if ds = [] then none
  else
    match ds with
    | '0' :: _ :: _ => none
    | _ =>
      let rest := body.drop ds.length
      match rest with
      | '.' :: _ => none
      | 'e' :: _ => none
      | 'E' :: _ => none
      | _ =>
        let n : Int := Int.ofNat (digitsToNat ds)
        some (.num (if neg then -n else n), rest)

mutual
/-- One JSON value (possibly preceded by whitespace); returns the value
and the unconsumed input.  Fuel-driven mutual recursion; `parseJson`
supplies ample fuel. -/
def parseValue : Nat → Str → Option (Json × Str)
  | 0, _ => none
  | f + 1, s =>
    match skipWs s with
    | [] => none
    | c :: rest =>
      if c = lbrace then parseObjBody f rest
      else if c = '[' then parseArrBody f rest
      else if c = '"' then
        (parseStringRest rest).map (fun (p : Str × Str) => (.str p.1, p.2))
      else if c = 't' then
        if strStartsWith rest ['r', 'u', 'e'] then some (.bool true, rest.drop 3) else none
      else if c = 'f' then
        if strStartsWith rest ['a', 'l', 's', 'e'] then some (.bool false, rest.drop 4) else none
      else if c = 'n' then
        if strStartsWith rest ['u', 'l', 'l'] then some (.null, rest.drop 3) else none
      else parseNumber (c :: rest)

/-- Array body after `[`. -/
def parseArrBody : Nat → Str → Option (Json × Str)
  | 0, _ => none
  | f + 1, s =>
    match skipWs s with
    | ']' :: r => some (.arr [], r)
    | _ =>
      (parseValue f s).bind (fun p =>
        (parseArrTail f p.2).map (fun q => (.arr (p.1 :: q.1), q.2)))

/-- Array continuation after an element: `,` and a value, or `]`. -/
def parseArrTail : Nat → Str → Option (List Json × Str)
  | 0, _ => none
  | f + 1, s =>
    match skipWs s with
    | ']' :: r => some ([], r)
    | ',' :: r =>
      (parseValue f r).bind (fun p =>
        (parseArrTail f p.2).map (fun q => (p.1 :: q.1, q.2)))
    | _ => none

/-- Object body after the opening brace. -/
def parseObjBody : Nat → Str → Option (Json × Str)
  | 0, _ => none
  | f + 1, s =>
    match skipWs s with
    | [] => none
    | c :: r =>
      if c = rbrace then some (.obj [], r)
      else if c = '"' then
        (parseStringRest r).bind (fun kp =>
          match skipWs kp.2 with
          | ':' :: r2 =>
            (parseValue f r2).bind (fun vp =>
              (parseObjTail f vp.2).map (fun q => (.obj ((kp.1, vp.1) :: q.1), q.2)))
          | _ => none)
      else none

/-- Object continuation after a member: `,` and a member, or a closing
brace. -/
def parseObjTail : Nat → Str → Option (List (Str × Json) × Str)
  | 0, _ => none
  | f + 1, s =>
    match skipWs s with
    | [] => none
    | c :: r =>
      if c = rbrace then some ([], r)
      else if c = ',' then
        match skipWs r with
        | '"' :: r1 =>
          (parseStringRest r1).bind (fun kp =>
            match skipWs kp.2 with
            | ':' :: r2 =>
              (parseValue f r2).bind (fun vp =>
                (parseObjTail f vp.2).map (fun q => ((kp.1, vp.1) :: q.1, q.2)))
            | _ => none)
        | _ => none
      else none
end

/-- `JSON.parse` over the model: one value, surrounded by whitespace only.
Throwing is modelled by `none`. -/
def parseJson (s : Str) : Option Json :=
  match parseValue (2 * s.length + 2) s with
  | some (j, rest) => if skipWs rest = [] then some j else none
  | none => none

/-! ## Stream processing (`StreamProcessor.processStream` /
`LLMGatewayClient._streamResponseChunks`) -/

/-- The `generationInfo.tokenUsage` object built for the final usage chunk
(`promptTokens`, `completionTokens`, `totalTokens`).  The fields keep the
raw JavaScript values (`usageData.inputTokens || 0` need not be a
number). -/
structure TokenUsage where
  promptTokens : Json
  completionTokens : Json
  totalTokens : Json

/-- The `generationInfo` object of a yielded `ChatGenerationChunk`; the
stream code writes only the `tokenUsage` key, while the collector reads
the `usage` key, so both are modelled. -/
structure GenInfo where
  tokenUsage : Option TokenUsage
  usage : Option Json

/-- A yielded `ChatGenerationChunk`: the `text` passed to the constructor
(the raw `payload.text` value, `none` for `undefined`) and the optional
`generationInfo`. -/
structure Chunk where
  text : Option Json
  generationInfo : Option GenInfo

/-- A yielded chunk tagged with the value of `streamCancelled` at the
moment of the yield — `true` means the chunk was yielded after the
`[DONE]` sentinel had been processed. -/
abbrev TChunk := Chunk × Bool

/-- Mutable loop state of `processStream`: the recorded usage payload and
the `streamCancelled` flag.  (The frame buffer is threaded separately.) -/
structure LoopSt where
  usageData : Option Json
  cancelled : Bool

/-- Classification of one `data:` payload (trimmed), mirroring the inline
sentinel test and `JSON.parse`-and-discriminate logic of the line loop.
`skip` covers every logged-and-ignored case: JSON parse failure, a value
that is not a non-null object, a missing `type` member, and an
unrecognized `type`. -/
inductive DataAction where
  | done : DataAction
  | text : Option Json → DataAction
  | usage : Option Json → DataAction
  | skip : DataAction

/-- Classify one trimmed `data:` payload. -/
def classifyData (dataStr : Str) : DataAction :=
  if dataStr = "[DONE]".data then .done
  else
    match parseJson dataStr with
    | none => .skip
    | some j =>
      if isObjectLike j && hasField j "type".data then
        match getField j "type".data with
        | some (.str t) =>
          if t = "text".data then .text (getField j "text".data)
          else if t = "usage".data then .usage (getField j "usage".data)
          else .skip
        | _ => .skip
      else .skip

/-- The `for (const line of lines)` loop over one frame's lines: yields a
chunk per `text` event, records `usage` payloads, and breaks out at the
`[DONE]` sentinel. -/
def runLinesT (st : LoopSt) : List Str → LoopSt × List TChunk
  | [] => (st, [])
  | line :: rest =>
    if strStartsWith line "data:".data then
      match classifyData (jsTrim (line.drop 5)) with
      | .done => ({ st with cancelled := true }, [])
      | .text d =>
        match runLinesT st rest with
        | (st1, evs) => (st1, (⟨d, none⟩, st.cancelled) :: evs)
      | .usage u => runLinesT { st with usageData := u } rest
      | .skip => runLinesT st rest
    else runLinesT st rest

/-- Split the buffer at the first `\n\n` boundary
(`buffer.indexOf("\n\n")`, `substring`). -/
def splitBoundary (buf : Str) : Option (Str × Str) :=
  match findSub ['\n', '\n'] buf with
  | some i => some (buf.take i, buf.drop (i + 2))
  | none => none

/-- The `while ((boundaryIndex = buffer.indexOf("\n\n")) >= 0)` loop:
extract complete frames, skip blank frames, process the lines of each
frame, and stop once `streamCancelled` is set.  Returns the final loop
state, the remaining buffer, and the yielded chunks.  The fuel is
structural bookkeeping only; every caller passes more fuel than the
buffer's length, which is ample since each iteration consumes at least
two characters. -/
def runBuffer : Nat → LoopSt → Str → LoopSt × Str × List TChunk
  | 0, st, buf => (st, buf, [])
  | fuel + 1, st, buf =>
    match splitBoundary buf with
    | none => (st, buf, [])
    | some (msg, rest) =>
      if st.cancelled then (st, buf, [])
      else if jsTrim msg = [] then runBuffer fuel st rest
      else
        match runLinesT st (splitNL msg) with
        | (st1, evs) =>
          if st1.cancelled then (st1, rest, evs)
          else
            match runBuffer fuel st1 rest with
            | (st2, rest2, evs2) => (st2, rest2, evs ++ evs2)

/-- The `for await (const chunk of responseBody)` loop: append each
incoming chunk to the buffer, drain complete frames, and stop once
`streamCancelled` is set. -/
def runChunks (st : LoopSt) (buffer : Str) : List Str → LoopSt × Str × List TChunk
  | [] => (st, buffer, [])
  | c :: rest =>
    if st.cancelled then (st, buffer, [])
    else
      match runBuffer ((buffer ++ c).length + 1) st (buffer ++ c) with
      | (st1, buf1, evs) =>
        if st1.cancelled then (st1, buf1, evs)
        else
          match runChunks st1 buf1 rest with
          | (st2, buf2, evs2) => (st2, buf2, evs ++ evs2)

/-- The final usage chunk yielded after the chunk loop when a usage
payload was recorded (`if (usageData) yield usageChunk`). -/
def usageChunkOf (u : Json) : Chunk :=
  let pt := jsOr (getField u "inputTokens".data) (.num 0)
  let ct := jsOr (getField u "outputTokens".data) (.num 0)
  ⟨some (.str []), some ⟨some ⟨pt, ct, jsAdd pt ct⟩, none⟩⟩

/-- Chunks yielded after the chunk loop ends. -/
def epilogue (st : LoopSt) : List TChunk :=
  match st.usageData with
  | some u => if jsTruthy u then [(usageChunkOf u, st.cancelled)] else []
  | none => []

/-- The full generator: all yielded chunks in order (tagged with the
`streamCancelled` flag at yield time) together with the final loop
state. -/
def processStreamT (chunks : List Str) : List TChunk × LoopSt :=
  match runChunks ⟨none, false⟩ [] chunks with
  | (st, _, evs) => (evs ++ epilogue st, st)

/-- The generator's yield sequence. -/
def processStream (chunks : List Str) : List Chunk :=
  (processStreamT chunks).1.map Prod.fst

/-! ## Result aggregation (`StreamProcessor.collectStreamResults`, and the
identical inline loop of `LLMGatewayClient._generate`) -/

/-- The aggregation result. -/
structure StreamProcessingResult where
  aggregatedText : Str
  usageData : Option Json
  lastChunk : Option Chunk

/-- One iteration of the aggregation loop: `aggregatedText += chunk.text`,
`if (chunk.generationInfo?.usage) usageData = chunk.generationInfo.usage`,
`lastChunk = chunk`. -/
def collectStep (acc : StreamProcessingResult) (c : Chunk) : StreamProcessingResult :=
  { aggregatedText := acc.aggregatedText ++ jsToStrOpt c.text
    usageData :=
      match c.generationInfo with
      | some gi => if jsTruthyOpt gi.usage then gi.usage else acc.usageData
      | none => acc.usageData
    lastChunk := some c }

/-- Consume a chunk stream into a single result. -/
def collectStreamResults (stream : List Chunk) : StreamProcessingResult :=
  stream.foldl collectStep ⟨[], none, none⟩

/-- The observable pieces of `_generate`'s `ChatResult` that this model
covers: `generations[0].text` and `llmOutput.usage`. -/
structure GenOutcome where
  text : Str
  llmOutputUsage : Option Json

/-- `_generate` restricted to the modelled fields: stream, aggregate, and
report `llmOutput: { usage: usageData }` (the empty-stream special case
produces the same two fields). -/
def generate (cs : List Str) : GenOutcome :=
  let r := collectStreamResults (processStream cs)
  ⟨r.aggregatedText, r.usageData⟩

/-! ## Tool-call extraction (`ResponseParser.parseToolCalls`, and the
identical private `LLMGatewayClient.parseToolCalls`)

The regex
`` /```json\s*([\s\S]+?)\s*```|^\s*(\{[\s\S]+\})\s*$/m ``
is modelled positionally: the scan tries each start position from the
left; at a position the fenced alternative is tried first, then the
bare-object alternative (anchored at line starts, with `$` matching before
a newline in multiline mode).  In both alternatives the surrounding `\s*`
groups only shift whitespace that the subsequent `.trim()` of the matched
group removes anyway, so each alternative is modelled by the span between
its delimiters; the lazy group of the fenced alternative ends at the first
` ``` ` occurrence leaving a non-empty body, the greedy group of the bare
alternative ends at the last `}` whose tail matches `\s*$`. -/

/-- Fenced alternative at position `p`: requires `` ```json `` at `p` and
a later `` ``` `` with at least one character in between; yields the raw
group (between the fence markers). -/
def tryAlt1At (s : Str) (p : Nat) : Option Str :=
  if strStartsWith (s.drop p) ("```json".data) then
    match findSub ("```".data) (s.drop (p + 8)) with
    | some k => some ((s.drop (p + 7)).take (k + 1))
    | none => none
  else none

/-- `^` of the multiline regex: start of input or just after a newline. -/
def lineStart (s : Str) (p : Nat) : Bool :=
  p = 0 || s.get? (p - 1) == some '\n'

/-- Length of the whitespace run of `s` starting at `p`. -/
def wsRunLen (s : Str) (p : Nat) : Nat :=
  ((s.drop p).takeWhile isWS).length

/-- `\s*$` (multiline) from position `i`: a whitespace run reaching the
end of input or a newline. -/
def tailOk (s : Str) (i : Nat) : Bool :=
  let u := ((s.drop i).takeWhile (fun c => isWS c && ! (c == '\n'))).length
  i + u = s.length || s.get? (i + u) == some '\n'

/-- Greatest `e ≥ lo` (scanning downward from the given start) with a `}`
at `e` whose tail matches `\s*$`. -/
def findLastClose (s : Str) (lo : Nat) : Nat → Option Nat
  | 0 =>
    if lo = 0 ∧ s.get? 0 = some rbrace ∧ tailOk s 1 then some 0 else none
  | e + 1 =>
    if e + 1 < lo then none
    else if s.get? (e + 1) = some rbrace ∧ tailOk s (e + 2) then some (e + 1)
    else findLastClose s lo e

/-- Bare-object alternative at position `p`: a line start, optional
whitespace, `{`, a non-empty body, and a final `}` followed by `\s*$`;
yields the braced span (group 2). -/
def tryAlt2At (s : Str) (p : Nat) : Option Str :=
  if lineStart s p then
    let w := wsRunLen s p
    if s.get? (p + w) = some lbrace then
      match findLastClose s (p + w + 2) (s.length - 1) with
      | some e => some ((s.drop (p + w)).take (e + 1 - (p + w)))
      | none => none
    else none
  else none

/-- Left-to-right scan over start positions. -/
def jsonMatchAux (s : Str) : Nat → Nat → Option Str
  | 0, _ => none
  | fuel + 1, p =>
    if p > s.length then none
    else
      match tryAlt1At s p with
      | some g => some g
      | none =>
        match tryAlt2At s p with
        | some g => some g
        | none => jsonMatchAux s fuel (p + 1)

/-- `responseText.match(regex)` reduced to the `.trim()`-relevant data:
the matched group's span (group 1 of the fenced alternative, group 2 of
the bare alternative), `none` when the regex does not match. -/
def jsonMatch (s : Str) : Option Str :=
  jsonMatchAux s (s.length + 1) 0

/-- A `ToolCall` pushed by `processCall`.  `name` and `args` keep the raw
JavaScript values of `call.tool_name` / `call.tool_input` (the TypeScript
annotations are unchecked casts at runtime). -/
structure ToolCall where
  name : Json
  args : Json
  id : Str

/-- `processCall` on a candidate that is not `null`: accept when
`call.tool_name` is truthy and `call.tool_input` is defined; the fresh id
is `"tool_" + uuidv4()`, with the `uuid` supply indexed by how many calls
were accepted before. -/
def processCallAccept (uuid : Nat → Str) (k : Nat) (call : Json) : Option ToolCall :=
  match getField call "tool_name".data, getField call "tool_input".data with
  | some nm, some inp =>
    if jsTruthy nm then some ⟨nm, inp, "tool_".data ++ uuid k⟩ else none
  | _, _ => none

/-- `parsedJson.forEach(processCall)` over an array: accepted calls are
collected in order; a `null` element makes `call.tool_name` throw a
`TypeError`, modelled by the `true` flag (the calls accepted before the
throw are kept — the JavaScript array outlives the exception). -/
def processArr (uuid : Nat → Str) (k : Nat) : List Json → List ToolCall × Bool
  | [] => ([], false)
  | .null :: _ => ([], true)
  | c :: rest =>
    match processCallAccept uuid k c with
    | some tc =>
      match processArr uuid (k + 1) rest with
      | (l, b) => (tc :: l, b)
    | none => processArr uuid k rest

/-- Dispatch on the parsed candidate: arrays via `forEach`, non-null
objects via a single `processCall`, anything else ignored.  The Boolean
reports whether processing threw. -/
def toolCallsOfJson (uuid : Nat → Str) (j : Json) : List ToolCall × Bool :=
  match j with
  | .arr xs => processArr uuid 0 xs
  | .obj fs =>
    (match processCallAccept uuid 0 (.obj fs) with
     | some tc => [tc]
     | none => [], false)
  | _ => ([], false)

/-- The body of `parseToolCalls` up to the final `return`: the
`finalResponseText` value and the accepted `toolCalls`.  The `catch`
branch restores `finalResponseText = responseText` while keeping the
already-pushed calls. -/
def parseToolCallsCore (uuid : Nat → Str) (responseText : Str) : Str × List ToolCall :=
  match jsonMatch responseText with
  | none => (responseText, [])
  | some g =>
    let jsonString := jsTrim g
    if jsonString = [] then (responseText, [])
    else
      match parseJson jsonString with
      | none => (responseText, [])
      | some parsed =>
        match toolCallsOfJson uuid parsed with
        | (calls, threw) =>
          if threw then (responseText, calls)
          else if calls.isEmpty then (responseText, calls)
          else ([], calls)

/-- Whether the `try` block of `parseToolCalls` threw (a `JSON.parse`
failure or a `TypeError` on a `null` array element). -/
def parseThrew (uuid : Nat → Str) (responseText : Str) : Bool :=
  match jsonMatch responseText with
  | none => false
  | some g =>
    let jsonString := jsTrim g
    if jsonString = [] then false
    else
      match parseJson jsonString with
      | none => true
      | some parsed => (toolCallsOfJson uuid parsed).2

/-- The returned record of `parseToolCalls`. -/
structure ParseOutcome where
  textResponse : Str
  toolCalls : Option (List ToolCall)

/-- `ResponseParser.parseToolCalls`: the final
`{ textResponse: finalResponseText.trim(),
   toolCalls: toolCalls.length > 0 ? toolCalls : undefined }`. -/
def parseToolCalls (uuid : Nat → Str) (responseText : Str) : ParseOutcome :=
  match parseToolCallsCore uuid responseText with
  | (txt, calls) => ⟨jsTrim txt, if calls.isEmpty then none else some calls⟩

/-- A concrete uuid supply for closed statements (`uuidv4` returns fresh
values; freshness is all the model relies on). -/
def uuidSeq (n : Nat) : Str := 'u' :: List.replicate n 'x'

/-! ## Message formatting (`MessageFormatter.formatMessages` /
`LLMGatewayClient.formatGatewayMessages`) -/

/-- A LangChain message, by its `_getType()` tag.  `other` stands for the
remaining message types, which the code's `default` branch maps to the
`user` role. -/
inductive Msg where
  | system : Str → Msg
  | human : Str → Msg
  | ai : Str → Msg
  | tool : Str → Str → Msg
  | other : Str → Msg

/-- Content of a message. -/
def Msg.content : Msg → Str
  | .system c => c
  | .human c => c
  | .ai c => c
  | .tool c _ => c
  | .other c => c

/-- `_getType() === "system"`. -/
def Msg.isSystem : Msg → Bool
  | .system _ => true
  | _ => false

/-- One entry of the gateway wire format. -/
structure WireMsg where
  role : Str
  content : Str

/-- Role translation of one message (the `switch` over `_getType()`);
tool results become `user` entries with the
`Tool Result [<id>]:\n<content>` marker. -/
def toWire : Msg → WireMsg
  | .system c => ⟨"system".data, c⟩
  | .human c => ⟨"user".data, c⟩
  | .ai c => ⟨"assistant".data, c⟩
  | .tool c id => ⟨"user".data, "Tool Result [".data ++ id ++ "]:\n".data ++ c⟩
  | .other c => ⟨"user".data, c⟩

/-- The mapped history before filtering: the default system prompt is
prepended when it is truthy and no system message is present. -/
def toFormatted (defaultSystemPrompt : Option Str) (messages : List Msg) : List WireMsg :=
  let sysMsgs : List Msg :=
    match defaultSystemPrompt with
    | some p =>
      if p ≠ [] ∧ ¬ (messages.any Msg.isSystem) then [.system p] else []
    | none => []
  (sysMsgs ++ messages).map toWire

/-- The filter callback, with the entry's index and the array length
(`msg.role !== "assistant"`, truthy non-blank content, or last index). -/
def keepAt (n i : Nat) (m : WireMsg) : Bool :=
  if m.role ≠ "assistant".data then true
  else if m.content ≠ [] ∧ jsTrim m.content ≠ [] then true
  else if i = n - 1 then true
  else false

/-- `Array.prototype.filter` with the index argument. -/
def filterIdx (n : Nat) : Nat → List WireMsg → List WireMsg
  | _, [] => []
  | i, m :: rest =>
    if keepAt n i m then m :: filterIdx n (i + 1) rest
    else filterIdx n (i + 1) rest

/-- `formatMessages`: translate, then drop blank assistant entries except
at the final index. -/
def formatMessages (defaultSystemPrompt : Option Str) (messages : List Msg) : List WireMsg :=
  let fs := toFormatted defaultSystemPrompt messages
  filterIdx fs.length 0 fs

/-- A blank assistant entry (the ones the filter drops away from the final
index). -/
def isBlankAssistant (m : WireMsg) : Bool :=
  m.role = "assistant".data ∧ jsTrim m.content = []

/-! ## Thread identity (`threadIdReducer` of `src/agent/state.ts`, and the
`threadId` selection of `LLMGatewayClient` request building) -/

/-- The state reducer: `update ?? current`. -/
def threadIdReducer (current update : Option Str) : Option Str :=
  match update with
  | some u => some u
  | none => current

/-- `const threadId = this.defaultThreadId ?? uuidv4()` — the thread id
of one request, given the fresh uuid that `uuidv4()` would produce for
this call.  (The body spread `...(threadId && { threadId })` includes the
id whenever it is a non-empty string, which the generated uuids always
are; the degenerate empty-string default is not modelled.) -/
def requestThreadId (defaultThreadId : Option Str) (fresh : Str) : Str :=
  match defaultThreadId with
  | some d => d
  | none => fresh

/-- The thread ids carried by the requests of `n` successive REASON
iterations of one turn against one client instance; `supply i` is the
fresh uuid of iteration `i`. -/
def turnRequestThreadIds (defaultThreadId : Option Str) (supply : Nat → Str) (n : Nat) : List Str :=
  (List.range n).map (fun i => requestThreadId defaultThreadId (supply i))

/-! ## Concrete inputs used by closed statements -/

/-- The C4 round-trip input: a bare tool-call object. -/
def c4in : Str :=
  ("\x7b\"tool_name\":\"calculator\",\"tool_input\":\x7b\"operation\":\"add\",\"num1\":2,\"num2\":3\x7d\x7d").data

/-- The arguments object of the C4 input. -/
def c4args : Json :=
  .obj [("operation".data, .str "add".data), ("num1".data, .num 2), ("num2".data, .num 3)]

/-- A fenced tool-call array whose second element is `null`: the first
element is accepted, then `forEach` throws a `TypeError` on
`null.tool_name`. -/
def c5in : Str :=
  ("```json\n[\x7b\"tool_name\":\"a\",\"tool_input\":\x7b\x7d\x7d,null]\n```").data

/-- The C6 passthrough input. -/
def c6in : Str := ("The answer is 5.").data

/-- A text frame, a usage frame and the sentinel, as one stream chunk. -/
def usageThenDone : Str :=
  ("data: \x7b\"type\":\"text\",\"text\":\"Hello\"\x7d\n\ndata: \x7b\"type\":\"usage\",\"usage\":\x7b\"inputTokens\":3,\"outputTokens\":5\x7d\x7d\n\ndata: [DONE]\n\n").data

/-- The usage payload of `usageThenDone`. -/
def usageThenDoneUsage : Json :=
  .obj [("inputTokens".data, .num 3), ("outputTokens".data, .num 5)]

/-- The chunks of the C1 witness: the same bytes split so that one cut
falls between the two newlines of a boundary marker and another falls
inside a frame. -/
def chunksSplit : List Str :=
  [("data: \x7b\"type\":\"te").data,
   ("xt\",\"text\":\"hi\"\x7d\n").data,
   ("\ndata: [DONE]\n\n").data]

/-- The concatenation of `chunksSplit`. -/
def chunksJoined : Str :=
  ("data: \x7b\"type\":\"text\",\"text\":\"hi\"\x7d\n\ndata: [DONE]\n\n").data

/-- C9 witness payloads: two valid text payloads and an invalid one. -/
def p9a : Str := ("\x7b\"type\":\"text\",\"text\":\"A\"\x7d").data

/-- Second valid text payload of the C9 witness. -/
def p9b : Str := ("\x7b\"type\":\"text\",\"text\":\"B\"\x7d").data

/-- The invalid JSON payload of the C9 witness. -/
def b9 : Str := ("\x7binvalid").data

/-- One SSE frame carrying a single `data:` line with payload `p`. -/
def sseFrame (p : Str) : Str := ("data: ").data ++ p ++ ['\n', '\n']

/-! ## Basic trimming lemmas -/

theorem dropWhile_self (p : Char → Bool) (l : Str) :
    (l.dropWhile p).dropWhile p = l.dropWhile p := by
  induction l with
  | nil => rfl
  | cons a t ih =>
    by_cases h : p a
    · simp only [List.dropWhile_cons, h, if_true, ih]
    · simp only [List.dropWhile_cons, h, if_false, Bool.false_eq_true]

theorem dropWhile_head_false (p : Char → Bool) (l : Str) (h : Char) (t' : Str)
    (hd : l.dropWhile p = h :: t') : p h = false := by
  induction l with
  | nil => simp at hd
  | cons a t ih =>
    rw [List.dropWhile_cons] at hd
    by_cases ha : p a
    · rw [if_pos ha] at hd; exact ih hd
    · rw [if_neg ha] at hd
      cases hd
      simpa using ha

theorem getLast?_dropWhile (p : Char → Bool) (l : Str) (hne : l.dropWhile p ≠ []) :
    (l.dropWhile p).getLast? = l.getLast? := by
  induction l with
  | nil => simp at hne
  | cons a t ih =>
    rw [List.dropWhile_cons] at hne ⊢
    by_cases h : p a
    · rw [if_pos h] at hne ⊢
      rw [ih hne]
      have ht : t ≠ [] := by
        intro e; rw [e] at hne; simp at hne
      cases t with
      | nil => exact absurd rfl ht
      | cons b u => rw [List.getLast?_cons_cons]
    · rw [if_neg h]

theorem dropWhile_eq_self_of_head (p : Char → Bool) (l : Str)
    (h : ∀ x, l.head? = some x → p x = false) : l.dropWhile p = l := by
  cases l with
  | nil => rfl
  | cons a t =>
    rw [List.dropWhile_cons, if_neg]
    simp only [h a rfl, Bool.false_eq_true, not_false_eq_true]

theorem jsTrim_idem (l : Str) : jsTrim (jsTrim l) = jsTrim l := by
  unfold jsTrim
  have h1 : ((l.dropWhile isWS).reverse.dropWhile isWS).reverse.dropWhile isWS
      = ((l.dropWhile isWS).reverse.dropWhile isWS).reverse := by
    apply dropWhile_eq_self_of_head
    intro x hx
    rw [List.head?_reverse] at hx
    have hRne : (l.dropWhile isWS).reverse.dropWhile isWS ≠ [] := by
      intro e; rw [e] at hx; simp at hx
    rw [getLast?_dropWhile _ _ hRne, List.getLast?_reverse] at hx
    cases hA : l.dropWhile isWS with
    | nil => rw [hA] at hx; simp at hx
    | cons h' t' =>
      rw [hA] at hx
      simp only [List.head?_cons, Option.some.injEq] at hx
      subst hx
      exact dropWhile_head_false isWS l h' t' hA
  rw [h1, List.reverse_reverse, dropWhile_self]

theorem core_snd_nil (uuid : Nat → Str) (s : Str)
    (h : (parseToolCallsCore uuid s).2 = []) : (parseToolCallsCore uuid s).1 = s := by
  unfold parseToolCallsCore at h ⊢
  rcases hm : jsonMatch s with _ | g <;> simp only [hm] at h ⊢
  by_cases hg : jsTrim g = [] <;> simp only [hg, if_true, if_false, if_pos, if_neg, reduceIte] at h ⊢
  · rcases hp : parseJson (jsTrim g) with _ | parsed <;> simp only [hp] at h ⊢
    rcases ht : toolCallsOfJson uuid parsed with ⟨calls, threw⟩
    simp only [ht] at h ⊢
    cases threw with
    | true => simp at h ⊢
    | false =>
      simp only [Bool.false_eq_true, if_false, reduceIte] at h ⊢
      by_cases hc : calls.isEmpty = true
      · simp [hc]
      · simp only [hc, if_false, reduceIte] at h
        subst h
        simp [List.isEmpty] at hc

/-- Claim C10 (confirmed): totality of the tool-call parser.  For every
input string `parseToolCalls` returns normally (the model is a total
function; every `JSON.parse` failure is caught internally, see
`parseToolCallsCore`), the returned `textResponse` is a trimmed string
(a fixed point of `jsTrim`), and the returned `toolCalls` field is either
absent or a non-empty list, never an empty list. -/
theorem parse_tool_calls_total (uuid : Nat → Str) (s : Str) :
    (parseToolCalls uuid s).textResponse = jsTrim ((parseToolCalls uuid s).textResponse) ∧
    (parseToolCalls uuid s).toolCalls ≠ some [] := by
  unfold parseToolCalls
  rcases hc : parseToolCallsCore uuid s with ⟨txt, calls⟩
  constructor
  · simp [jsTrim_idem]
  · cases calls <;> simp [List.isEmpty]

/-- Claim C4 (confirmed): tool-call round trip.  For the input
`{"tool_name":"calculator","tool_input":{"operation":"add","num1":2,"num2":3}}`
(braces elided), `parseToolCalls` returns exactly one `ToolCall` named
`calculator` with args `{operation:"add",num1:2,num2:3}` and a freshly
generated id `tool_<uuid>`, and the returned `textResponse` is empty —
for every uuid supply. -/
theorem tool_call_round_trip (uuid : Nat → Str) :
    parseToolCalls uuid c4in =
      ⟨[], some [⟨.str "calculator".data, c4args, "tool_".data ++ uuid 0⟩]⟩ := rfl

/-- Claim C6 (confirmed): plain-text passthrough.  Whenever no candidate
tool call is accepted — which covers the three listed conditions: no
embedded JSON candidate found (`jsonMatch` is `none`), no candidate
accepted, or JSON parsing of the candidate failing — `parseToolCalls`
returns the original text trimmed with `toolCalls` absent; in particular
`"The answer is 5."` passes through unchanged. -/
theorem plain_text_passthrough :
    (∀ (uuid : Nat → Str) (s : Str), (parseToolCallsCore uuid s).2 = [] →
      parseToolCalls uuid s = ⟨jsTrim s, none⟩) ∧
    parseToolCalls uuidSeq c6in = ⟨c6in, none⟩ := by
  constructor
  · intro uuid s h
    have h1 := core_snd_nil uuid s h
    unfold parseToolCalls
    rcases hc : parseToolCallsCore uuid s with ⟨txt, calls⟩
    rw [hc] at h h1
    simp only at h h1
    subst h h1
    simp [List.isEmpty]
  · rfl

/-- Witness for C6 at a concrete input. -/
theorem plain_text_passthrough_witness :
    parseToolCalls uuidSeq ("hello world").data = ⟨("hello world").data, none⟩ := by
  have := plain_text_passthrough.1 uuidSeq ("hello world").data rfl
  rw [this]
  rfl

/-- Counterexample to claim C5 as stated: for the fenced input
` ```json [{"tool_name":"a","tool_input":{}},null] ``` ` (braces elided),
`forEach` accepts the first candidate and then throws a `TypeError` on
`null.tool_name`; the `catch` restores the original text while the
accepted call survives, so the result carries non-empty `toolCalls` AND a
non-empty `textResponse`. -/
theorem mutual_exclusivity_counterexample :
    (parseToolCalls uuidSeq c5in).toolCalls.isSome = true ∧
    (parseToolCalls uuidSeq c5in).textResponse ≠ [] := by
  constructor
  · rfl
  · decide

/-- Claim C5 (corrected): mutual exclusivity of text and tool calls holds
whenever the `try` block completed without an exception — if no throw
occurred and one or more tool calls were accepted, the returned
`textResponse` is empty. -/
theorem mutual_exclusivity_amended (uuid : Nat → Str) (s : Str)
    (hthrow : parseThrew uuid s = false)
    (hsome : (parseToolCalls uuid s).toolCalls.isSome = true) :
    (parseToolCalls uuid s).textResponse = [] := by
  unfold parseToolCalls at hsome ⊢
  unfold parseThrew at hthrow
  unfold parseToolCallsCore at hsome ⊢
  rcases hm : jsonMatch s with _ | g <;> simp only [hm] at hthrow hsome ⊢
  · simp [List.isEmpty] at hsome
  by_cases hg : jsTrim g = [] <;> simp only [hg, if_true, if_false, reduceIte] at hthrow hsome ⊢
  · simp [List.isEmpty] at hsome
  rcases hp : parseJson (jsTrim g) with _ | parsed <;> simp only [hp] at hthrow hsome ⊢
  · simp [List.isEmpty] at hsome
  rcases ht : toolCallsOfJson uuid parsed with ⟨calls, threw⟩
  simp only [ht] at hthrow hsome ⊢
  subst hthrow
  simp only [Bool.false_eq_true, if_false, reduceIte] at hsome ⊢
  by_cases hc : calls.isEmpty = true
  · simp [hc] at hsome
  · simp only [hc, if_false, reduceIte] at hsome ⊢
    rfl

/-- Witness for the amended C5 at a concrete input. -/
theorem mutual_exclusivity_witness :
    (parseToolCalls uuidSeq c4in).textResponse = [] :=
  mutual_exclusivity_amended uuidSeq c4in rfl rfl

/-- Counterexample to claim C3 as stated: the reducer is last-write-wins
(a present update replaces an existing threadId), and with no
`defaultThreadId` each request generates a fresh uuid, so two iterations
of one turn carry different thread ids. -/
theorem thread_id_counterexample :
    threadIdReducer (some ("a").data) (some ("b").data) = some ("b").data ∧
    requestThreadId none (uuidSeq 0) ≠ requestThreadId none (uuidSeq 1) := by
  exact ⟨rfl, by decide⟩

/-- Claim C3 (corrected): the reducer keeps the current threadId when the
update omits one; every request of a turn carries the identical threadId
exactly when the client holds a `defaultThreadId` (then each request
carries that id) — without one, request `i` carries the fresh uuid of
iteration `i`. -/
theorem thread_id_amended :
    (∀ c : Option Str, threadIdReducer c none = c) ∧
    (∀ (d : Str) (supply : Nat → Str) (n : Nat) (t : Str),
      t ∈ turnRequestThreadIds (some d) supply n → t = d) ∧
    (∀ (supply : Nat → Str) (n i : Nat), i < n →
      (turnRequestThreadIds none supply n)[i]? = some (supply i)) := by
  refine ⟨fun c => rfl, ?_, ?_⟩
  · intro d supply n t ht
    unfold turnRequestThreadIds at ht
    simp only [List.mem_map] at ht
    obtain ⟨i, _, hi⟩ := ht
    simpa [requestThreadId] using hi.symm
  · intro supply n i hin
    unfold turnRequestThreadIds
    rw [List.getElem?_map, List.getElem?_range hin]
    rfl

/-- Witness for the amended C3 at concrete inputs. -/
theorem thread_id_witness :
    ("t").data = ("t").data ∧
    (turnRequestThreadIds none uuidSeq 2)[1]? = some (uuidSeq 1) :=
  ⟨thread_id_amended.2.1 ("t").data uuidSeq 3 ("t").data (by decide),
   thread_id_amended.2.2 uuidSeq 2 1 (by decide)⟩

theorem filterIdx_append_last (fs : List WireMsg) (lastm : WireMsg) :
    ∀ (i n : Nat), n = i + fs.length + 1 →
    filterIdx n i (fs ++ [lastm]) = fs.filter (fun m => ! isBlankAssistant m) ++ [lastm] := by
  induction fs with
  | nil =>
    intro i n hn
    simp only [List.nil_append, filterIdx]
    rw [if_pos]
    · simp
    · unfold keepAt
      by_cases h1 : lastm.role ≠ ("assistant").data
      · simp [h1]
      · by_cases h2 : lastm.content ≠ [] ∧ jsTrim lastm.content ≠ []
        · simp [h1, h2]
        · have hi : i = n - 1 := by simp at hn; omega
          simp [h1, h2, hi]
  | cons m fs' ih =>
    intro i n hn
    simp only [List.cons_append, filterIdx]
    have hkeep : keepAt n i m = ! isBlankAssistant m := by
      unfold keepAt isBlankAssistant
      have hlt : ¬ (i = n - 1) := by
        simp only [List.length_cons] at hn
        omega
      by_cases h1 : m.role = ("assistant").data
      · by_cases h2 : jsTrim m.content = []
        · have h3 : ¬ (m.content ≠ [] ∧ jsTrim m.content ≠ []) := by
            intro hc; exact hc.2 h2
          simp [h1, h2, h3, hlt]
        · have hcne : m.content ≠ [] := by
            intro e; rw [e] at h2; exact h2 rfl
          simp [h1, h2, hcne]
      · simp [h1]
    rw [hkeep, List.filter_cons]
    by_cases hb : isBlankAssistant m = true
    · simp only [hb, Bool.not_true, if_false, reduceIte, Bool.false_eq_true, List.append_eq]
      exact ih (i + 1) n (by simp only [List.length_cons] at hn; omega)
    · simp only [Bool.not_eq_true] at hb
      simp only [hb, Bool.not_false, if_true, reduceIte, List.append_eq]
      rw [ih (i + 1) n (by simp only [List.length_cons] at hn; omega)]
      rfl

/-- Claim C8 (corrected): the translated history drops every blank
assistant entry except one at the final position — the filtered list is
the non-blank-assistant entries of the prefix followed by the final entry
unconditionally, preserving order.  (The claim's "most recent" blank
assistant entry is NOT kept unless it is the final entry, see the
counterexample.) -/
theorem empty_assistant_amended (dsp : Option Str) (msgs : List Msg)
    (fs : List WireMsg) (lastm : WireMsg)
    (h : toFormatted dsp msgs = fs ++ [lastm]) :
    formatMessages dsp msgs = fs.filter (fun m => ! isBlankAssistant m) ++ [lastm] := by
  unfold formatMessages
  rw [h]
  exact filterIdx_append_last fs lastm 0 _ (by simp)

/-- Counterexample to claim C8 as stated: in the history
`[assistant "", user "hi"]` the most recent (indeed only) blank assistant
entry is dropped, because it is not at the final index — the filter keeps
a blank assistant only at the last position of the array. -/
theorem empty_assistant_counterexample :
    formatMessages none [Msg.ai [], Msg.human ("hi").data] = [⟨("user").data, ("hi").data⟩] ∧
    isBlankAssistant (toWire (Msg.ai [])) = true := ⟨rfl, rfl⟩

/-- Witness for the amended C8 at a concrete input. -/
theorem empty_assistant_witness :
    formatMessages none [Msg.ai [], Msg.human ("hi").data] =
      ([⟨("assistant").data, []⟩] : List WireMsg).filter (fun m => ! isBlankAssistant m)
        ++ [⟨("user").data, ("hi").data⟩] :=
  empty_assistant_amended none _ _ _ rfl

/-! ## Frame-decoder lemmas -/

theorem runBuffer_succ (fuel : Nat) (st : LoopSt) (buf : Str) :
    runBuffer (fuel + 1) st buf =
      (match splitBoundary buf with
       | none => (st, buf, [])
       | some (m, rest) =>
         if st.cancelled then (st, buf, [])
         else if jsTrim m = [] then runBuffer fuel st rest
         else
           match runLinesT st (splitNL m) with
           | (st1, evs) =>
             if st1.cancelled then (st1, rest, evs)
             else
               match runBuffer fuel st1 rest with
               | (st2, rest2, evs2) => (st2, rest2, evs ++ evs2)) := rfl

theorem strStartsWith_length (pat s : Str) (h : strStartsWith s pat = true) :
    pat.length ≤ s.length := by
  induction pat generalizing s with
  | nil => simp
  | cons d p ih =>
    cases s with
    | nil => simp [strStartsWith] at h
    | cons c t =>
      simp only [strStartsWith, Bool.and_eq_true] at h
      have := ih t h.2
      simp only [List.length_cons]
      omega

theorem strStartsWith_mono (pat x y : Str) (h : strStartsWith x pat = true) :
    strStartsWith (x ++ y) pat = true := by
  induction pat generalizing x with
  | nil =>
    cases x ++ y with
    | nil => rfl
    | cons c t => rfl
  | cons d p ih =>
    cases x with
    | nil => simp [strStartsWith] at h
    | cons c t =>
      simp only [List.cons_append, strStartsWith, Bool.and_eq_true] at h ⊢
      exact ⟨h.1, ih t h.2⟩

theorem strStartsWith_false_stable (pat x y : Str) (h : strStartsWith x pat = false)
    (hl : pat.length ≤ x.length) : strStartsWith (x ++ y) pat = false := by
  induction pat generalizing x with
  | nil =>
    exfalso
    cases x with
    | nil => simp [strStartsWith] at h
    | cons c t => simp [strStartsWith] at h
  | cons d p ih =>
    cases x with
    | nil => simp at hl
    | cons c t =>
      by_cases hcd : (c == d) = true
      · simp only [strStartsWith, hcd, Bool.true_and] at h
        simp only [List.cons_append, strStartsWith, hcd, Bool.true_and]
        exact ih t h (by simp only [List.length_cons] at hl; omega)
      · simp only [Bool.not_eq_true] at hcd
        simp only [List.cons_append, strStartsWith, hcd, Bool.false_and]

theorem findSub_bound (pat x : Str) (i : Nat) (h : findSub pat x = some i) :
    i + pat.length ≤ x.length := by
  induction x generalizing i with
  | nil =>
    unfold findSub at h
    by_cases hs : strStartsWith [] pat = true
    · rw [if_pos hs] at h
      cases h
      simpa using strStartsWith_length pat [] hs
    · rw [if_neg hs] at h
      cases h
  | cons c t ih =>
    unfold findSub at h
    by_cases hs : strStartsWith (c :: t) pat = true
    · rw [if_pos hs] at h
      cases h
      simpa using strStartsWith_length pat (c :: t) hs
    · rw [if_neg hs] at h
      rcases Option.map_eq_some'.mp h with ⟨j, hj, rfl⟩
      have := ih j hj
      simp only [List.length_cons]
      omega

theorem findSub_append (pat x y : Str) (i : Nat) (h : findSub pat x = some i) :
    findSub pat (x ++ y) = some i := by
  induction x generalizing i with
  | nil =>
    unfold findSub at h
    by_cases hs : strStartsWith [] pat = true
    · rw [if_pos hs] at h
      cases h
      cases pat with
      | nil =>
        cases y with
        | nil => rfl
        | cons c t => rfl
      | cons d p => simp [strStartsWith] at hs
    · rw [if_neg hs] at h
      cases h
  | cons c t ih =>
    rw [List.cons_append]
    unfold findSub at h ⊢
    by_cases hs : strStartsWith (c :: t) pat = true
    · rw [if_pos hs] at h
      cases h
      have hm := strStartsWith_mono pat (c :: t) y hs
      rw [List.cons_append] at hm
      rw [if_pos hm]
    · rw [if_neg hs] at h
      rcases Option.map_eq_some'.mp h with ⟨j, hj, rfl⟩
      have hb := findSub_bound pat t j hj
      have hxlen : pat.length ≤ (c :: t).length := by
        simp only [List.length_cons]
        omega
      have hfalse := strStartsWith_false_stable pat (c :: t) y
        (by simp only [Bool.not_eq_true] at hs; exact hs) hxlen
      rw [List.cons_append] at hfalse
      rw [if_neg (by simp [hfalse])]
      rw [ih j hj]
      rfl

theorem take_append_le (a b : Str) (i : Nat) (h : i ≤ a.length) :
    (a ++ b).take i = a.take i := by
  induction a generalizing i with
  | nil =>
    simp only [List.length_nil, Nat.le_zero] at h
    subst h
    simp
  | cons c t ih =>
    cases i with
    | zero => simp
    | succ j =>
      simp only [List.cons_append, List.take_succ_cons]
      rw [ih j (by simp only [List.length_cons] at h; omega)]

theorem drop_append_le (a b : Str) (i : Nat) (h : i ≤ a.length) :
    (a ++ b).drop i = a.drop i ++ b := by
  induction a generalizing i with
  | nil =>
    simp only [List.length_nil, Nat.le_zero] at h
    subst h
    simp
  | cons c t ih =>
    cases i with
    | zero => simp
    | succ j =>
      simp only [List.cons_append, List.drop_succ_cons]
      exact ih j (by simp only [List.length_cons] at h; omega)

theorem splitBoundary_append (x y m r : Str) (h : splitBoundary x = some (m, r)) :
    splitBoundary (x ++ y) = some (m, r ++ y) := by
  unfold splitBoundary at h ⊢
  rcases hf : findSub ['\n', '\n'] x with _ | i
  · rw [hf] at h
    cases h
  · rw [hf] at h
    cases h
    have hb := findSub_bound _ x i hf
    simp only [List.length_cons, List.length_nil] at hb
    rw [findSub_append _ x y i hf]
    simp only [Option.some.injEq, Prod.mk.injEq]
    constructor
    · exact take_append_le x y i (by omega)
    · exact drop_append_le x y (i + 2) (by omega)

theorem splitBoundary_rest_lt (buf m r : Str) (h : splitBoundary buf = some (m, r)) :
    r.length < buf.length := by
  unfold splitBoundary at h
  rcases hf : findSub ['\n', '\n'] buf with _ | i
  · rw [hf] at h
    cases h
  · rw [hf] at h
    cases h
    have hb := findSub_bound _ buf i hf
    simp only [List.length_cons, List.length_nil] at hb
    simp only [List.length_drop]
    omega

theorem rb_fuel (f : Nat) : ∀ (g : Nat) (st : LoopSt) (buf : Str),
    buf.length < f → buf.length < g → runBuffer f st buf = runBuffer g st buf := by
  induction f with
  | zero =>
    intro g st buf hf _
    exact absurd hf (Nat.not_lt_zero _)
  | succ f' ih =>
    intro g st buf hf hg
    cases g with
    | zero => exact absurd hg (Nat.not_lt_zero _)
    | succ g' =>
      rw [runBuffer_succ, runBuffer_succ]
      rcases hs : splitBoundary buf with _ | ⟨m, r⟩
      · rfl
      · have hlt := splitBoundary_rest_lt buf m r hs
        by_cases hc : st.cancelled = true
      
        · simp [hc]
        · simp only [Bool.not_eq_true] at hc
          simp only [hc, Bool.false_eq_true, if_false, reduceIte]
          by_cases hm : jsTrim m = []
          · simp only [hm, if_true, reduceIte]
            exact ih g' st r (by omega) (by omega)
          · simp only [hm, if_false, reduceIte]
            rcases runLinesT st (splitNL m) with ⟨st1, evs⟩
            by_cases h1 : st1.cancelled = true
            · simp [h1]
            · simp only [Bool.not_eq_true] at h1
              simp only [h1, Bool.false_eq_true, if_false, reduceIte]
              rw [ih g' st1 r (by omega) (by omega)]

theorem rb_left_no_boundary (f : Nat) : ∀ (st : LoopSt) (buf : Str),
    buf.length < f → (runBuffer f st buf).1.cancelled = false →
    splitBoundary (runBuffer f st buf).2.1 = none := by
  induction f with
  | zero =>
    intro st buf hf _
    exact absurd hf (Nat.not_lt_zero _)
  | succ f' ih =>
    intro st buf hf hcanc
    rw [runBuffer_succ] at hcanc ⊢
    rcases hs : splitBoundary buf with _ | ⟨m, r⟩
    · simp only [hs]
    · simp only [hs] at hcanc ⊢
      have hlt := splitBoundary_rest_lt buf m r hs
      by_cases hc : st.cancelled = true
      · simp only [hc, if_true, reduceIte] at hcanc ⊢
        simp at hcanc
      · simp only [Bool.not_eq_true] at hc
        simp only [hc, Bool.false_eq_true, if_false, reduceIte] at hcanc ⊢
        by_cases hm : jsTrim m = []
        · simp only [hm, if_true, reduceIte] at hcanc ⊢
          exact ih st r (by omega) hcanc
        · simp only [hm, if_false, reduceIte] at hcanc ⊢
          rcases hL : runLinesT st (splitNL m) with ⟨st1, evs⟩
          simp only [hL] at hcanc ⊢
          by_cases h1 : st1.cancelled = true
          · simp only [h1, if_true, reduceIte] at hcanc ⊢
            simp at hcanc
          · simp only [Bool.not_eq_true] at h1
            simp only [h1, Bool.false_eq_true, if_false, reduceIte] at hcanc ⊢
            rcases hrb : runBuffer f' st1 r with ⟨st2, rest2, evs2⟩
            simp only [hrb] at hcanc ⊢
            have h3 := ih st1 r (by omega)
            rw [hrb] at h3
            exact h3 hcanc

theorem rb_append (k : Nat) : ∀ (x : Str), x.length ≤ k →
    ∀ (y : Str) (st st1 : LoopSt) (l1 : Str) (e1 : List TChunk),
    st.cancelled = false →
    runBuffer (x.length + 1) st x = (st1, l1, e1) →
    runBuffer ((x ++ y).length + 1) st (x ++ y) =
      (if st1.cancelled then (st1, l1 ++ y, e1)
       else ((runBuffer ((l1 ++ y).length + 1) st1 (l1 ++ y)).1,
             (runBuffer ((l1 ++ y).length + 1) st1 (l1 ++ y)).2.1,
             e1 ++ (runBuffer ((l1 ++ y).length + 1) st1 (l1 ++ y)).2.2)) := by
  induction k with
  | zero =>
    intro x hx y st st1 l1 e1 hc hrb
    have hx0 : x = [] := List.length_eq_zero.mp (Nat.le_zero.mp hx)
    subst hx0
    rw [show runBuffer (([] : Str).length + 1) st [] = (st, [], []) from rfl] at hrb
    injection hrb with h1 h23
    injection h23 with h2 h3
    subst h1 h2 h3
    simp only [hc, Bool.false_eq_true, if_false, reduceIte, List.nil_append]
  | succ k' ih =>
    intro x hx y st st1 l1 e1 hc hrb
    rcases hsx : splitBoundary x with _ | ⟨m, r⟩
    · rw [runBuffer_succ] at hrb
      simp only [hsx] at hrb
      injection hrb with h1 h23
      injection h23 with h2 h3
      subst h1 h2 h3
      simp only [hc, Bool.false_eq_true, if_false, reduceIte]
      rcases hy : runBuffer ((x ++ y).length + 1) st (x ++ y) with ⟨a, b, c⟩
      simp [hy]
    · have hsxy := splitBoundary_append x y m r hsx
      have hlt := splitBoundary_rest_lt x m r hsx
      have hxk : r.length ≤ k' := by omega
      rw [runBuffer_succ] at hrb
      simp only [hsx, hc, Bool.false_eq_true, if_false, reduceIte] at hrb
      conv_lhs => rw [runBuffer_succ]
      simp only [hsxy, hc, Bool.false_eq_true, if_false, reduceIte]
      by_cases hm : jsTrim m = []
      · simp only [hm, if_true, reduceIte] at hrb ⊢
        rw [rb_fuel x.length (r.length + 1) st r (by omega) (by omega)] at hrb
        rw [rb_fuel ((x ++ y).length) ((r ++ y).length + 1) st (r ++ y)
          (by simp only [List.length_append]; omega) (by omega)]
        exact ih r hxk y st st1 l1 e1 hc hrb
      · simp only [hm, if_false, reduceIte] at hrb ⊢
        rcases hL : runLinesT st (splitNL m) with ⟨stL, evs⟩
        simp only [hL] at hrb ⊢
        by_cases hLc : stL.cancelled = true
        · simp only [hLc, if_true, reduceIte] at hrb ⊢
          injection hrb with h1 h23
          injection h23 with h2 h3
          subst h1 h2 h3
          simp [hLc]
        · simp only [Bool.not_eq_true] at hLc
          simp only [hLc, Bool.false_eq_true, if_false, reduceIte] at hrb ⊢
          rcases hB : runBuffer x.length stL r with ⟨stB, lB, eB⟩
          simp only [hB] at hrb
          injection hrb with h1 h23
          injection h23 with h2 h3
          subst h1 h2 h3
          rw [rb_fuel x.length (r.length + 1) stL r (by omega) (by omega)] at hB
          have hIH := ih r hxk y stL stB lB eB hLc hB
          rw [rb_fuel ((x ++ y).length) ((r ++ y).length + 1) stL (r ++ y)
            (by simp only [List.length_append]; omega) (by omega)]
          rw [hIH]
          by_cases hBc : stB.cancelled = true
          · simp [hBc]
          · simp only [Bool.not_eq_true] at hBc
            simp only [hBc, Bool.false_eq_true, if_false, reduceIte]
            rcases h2 : runBuffer ((lB ++ y).length + 1) stB (lB ++ y) with ⟨a2, b2, c2⟩
            simp [h2, List.append_assoc]

theorem chunks_collapse (cs : List Str) : ∀ (st : LoopSt) (buf : Str),
    st.cancelled = false → splitBoundary buf = none →
    ((runChunks st buf cs).1, (runChunks st buf cs).2.2) =
      ((runChunks st buf [cs.flatten]).1, (runChunks st buf [cs.flatten]).2.2) := by
  induction cs with
  | nil =>
    intro st buf hc hb
    have h1 : runBuffer ((buf ++ ([] : Str)).length + 1) st (buf ++ ([] : Str)) =
        (st, buf ++ [], []) := by
      rw [runBuffer_succ]
      rw [show splitBoundary (buf ++ ([] : Str)) = none from by
        rw [List.append_nil]; exact hb]
    simp only [List.flatten_nil, runChunks, hc, Bool.false_eq_true, if_false, reduceIte, h1]
    simp
  | cons c rest ih =>
    intro st buf hc hb
    simp only [List.flatten_cons, runChunks, hc, Bool.false_eq_true, if_false, reduceIte]
    rcases hB : runBuffer ((buf ++ c).length + 1) st (buf ++ c) with ⟨st1, l1, e1⟩
    simp only [hB]
    have hR := rb_append ((buf ++ c).length) (buf ++ c) (le_refl _) (rest.flatten)
      st st1 l1 e1 hc hB
    have hassoc : buf ++ (c ++ rest.flatten) = (buf ++ c) ++ rest.flatten :=
      (List.append_assoc _ _ _).symm
    rw [hassoc]
    rcases hRB : runBuffer (((buf ++ c) ++ rest.flatten).length + 1) st
        ((buf ++ c) ++ rest.flatten) with ⟨stJ, bJ, eJ⟩
    rw [hRB] at hR
    simp only [hRB]
    by_cases h1 : st1.cancelled = true
    · simp only [h1, if_true, reduceIte] at hR ⊢
      injection hR with ha hbc
      injection hbc with hb2 hc2
      subst ha hb2 hc2
      simp [h1]
    · simp only [Bool.not_eq_true] at h1
      simp only [h1, Bool.false_eq_true, if_false, reduceIte] at hR ⊢
      have hnb : splitBoundary l1 = none := by
        have h4 := rb_left_no_boundary ((buf ++ c).length + 1) st (buf ++ c)
          (by omega) (by rw [hB]; exact h1)
        rwa [hB] at h4
      have hIH := ih st1 l1 h1 hnb
      rcases hL : runChunks st1 l1 rest with ⟨st2, b2, e2⟩
      rw [hL] at hIH
      simp only [hL]
      simp only [runChunks, h1, Bool.false_eq_true, if_false, reduceIte] at hIH
      rcases hR2 : runBuffer ((l1 ++ rest.flatten).length + 1) st1 (l1 ++ rest.flatten)
        with ⟨stR, bR, eR⟩
      rw [hR2] at hR
      simp only [hR2] at hIH
      injection hR with ha hbc
      injection hbc with hb2 hc2
      subst ha hb2 hc2
      by_cases h2 : stJ.cancelled = true
      · simp only [h2, if_true, reduceIte] at hIH ⊢
        injection hIH with hx hy
        subst hx hy
        rfl
      · simp only [Bool.not_eq_true] at h2
        simp only [h2, Bool.false_eq_true, if_false, reduceIte, runChunks,
          List.append_nil] at hIH ⊢
        injection hIH with hx hy
        subst hx hy
        rfl

/-- Claim C1 (confirmed): chunk-boundary invariance.  For every character
sequence `bs` and every partition `cs` of it into sub-chunks (including
partitions splitting the `\n\n` boundary marker), processing the
partition yields the identical ordered sequence of emitted chunks — the
same text deltas in the same order — and the same recorded usage and
final state as processing `bs` as one single chunk. -/
theorem chunk_boundary_invariance (bs : Str) (cs : List Str) (h : cs.flatten = bs) :
    processStreamT cs = processStreamT [bs] := by
  subst h
  unfold processStreamT
  have hcol := chunks_collapse cs ⟨none, false⟩ [] rfl rfl
  rcases h1 : runChunks ⟨none, false⟩ [] cs with ⟨st, buf, evs⟩
  rcases h2 : runChunks ⟨none, false⟩ [] [cs.flatten] with ⟨st', buf', evs'⟩
  rw [h1, h2] at hcol
  injection hcol with ha hbx
  simp only at ha hbx
  rw [ha, hbx]

/-- Witness for C1: a split placing one cut inside the boundary marker. -/
theorem chunk_boundary_invariance_witness :
    processStreamT chunksSplit = processStreamT [chunksJoined] :=
  chunk_boundary_invariance chunksJoined chunksSplit rfl

/-! ## Yield-tag lemmas: no chunk is yielded while `streamCancelled` is
set during the loops — only the usage epilogue can carry a `true` tag. -/

theorem runLinesT_tags (lines : List Str) : ∀ (st : LoopSt), st.cancelled = false →
    ∀ p ∈ (runLinesT st lines).2, p.2 = false := by
  induction lines with
  | nil =>
    intro st hc p hp
    simp [runLinesT] at hp
  | cons line rest ih =>
    intro st hc p hp
    simp only [runLinesT] at hp
    by_cases hd : strStartsWith line ("data:".data) = true
    · simp only [hd, if_true, reduceIte] at hp
      rcases hcl : classifyData (jsTrim (line.drop 5)) with _ | d | u | _
      · simp only [hcl] at hp
        simp at hp
      · simp only [hcl] at hp
        rcases hr : runLinesT st rest with ⟨st1, evs⟩
        simp only [hr] at hp
        rcases List.mem_cons.mp hp with hp1 | hp2
        · subst hp1
          exact hc
        · have := ih st hc p
          rw [hr] at this
          exact this hp2
      · simp only [hcl] at hp
        have hc2 : ({ st with usageData := u } : LoopSt).cancelled = false := hc
        exact ih { st with usageData := u } hc2 p hp
      · simp only [hcl] at hp
        exact ih st hc p hp
    · simp only [hd, Bool.false_eq_true, if_false, reduceIte] at hp
      exact ih st hc p hp

theorem runBuffer_tags (f : Nat) : ∀ (st : LoopSt) (buf : Str), st.cancelled = false →
    ∀ p ∈ (runBuffer f st buf).2.2, p.2 = false := by
  induction f with
  | zero =>
    intro st buf hc p hp
    simp [runBuffer] at hp
  | succ f' ih =>
    intro st buf hc p hp
    rw [runBuffer_succ] at hp
    rcases hs : splitBoundary buf with _ | ⟨m, r⟩
    · simp only [hs] at hp
      simp at hp
    · simp only [hs, hc, Bool.false_eq_true, if_false, reduceIte] at hp
      by_cases hm : jsTrim m = []
      · simp only [hm, if_true, reduceIte] at hp
        exact ih st r hc p hp
      · simp only [hm, if_false, reduceIte] at hp
        rcases hL : runLinesT st (splitNL m) with ⟨st1, evs⟩
        simp only [hL] at hp
        have hevs : ∀ q ∈ evs, q.2 = false := by
          have := runLinesT_tags (splitNL m) st hc
          rw [hL] at this
          exact this
        by_cases h1 : st1.cancelled = true
        · simp only [h1, if_true, reduceIte] at hp
          exact hevs p hp
        · simp only [Bool.not_eq_true] at h1
          simp only [h1, Bool.false_eq_true, if_false, reduceIte] at hp
          rcases hB : runBuffer f' st1 r with ⟨st2, r2, e2⟩
          simp only [hB] at hp
          rcases List.mem_append.mp hp with hp1 | hp2
          · exact hevs p hp1
          · have := ih st1 r h1 p
            rw [hB] at this
            exact this hp2

theorem runChunks_tags (cs : List Str) : ∀ (st : LoopSt) (buf : Str), st.cancelled = false →
    ∀ p ∈ (runChunks st buf cs).2.2, p.2 = false := by
  induction cs with
  | nil =>
    intro st buf hc p hp
    simp [runChunks] at hp
  | cons c rest ih =>
    intro st buf hc p hp
    simp only [runChunks, hc, Bool.false_eq_true, if_false, reduceIte] at hp
    rcases hB : runBuffer ((buf ++ c).length + 1) st (buf ++ c) with ⟨st1, b1, e1⟩
    simp only [hB] at hp
    have he1 : ∀ q ∈ e1, q.2 = false := by
      have := runBuffer_tags ((buf ++ c).length + 1) st (buf ++ c) hc
      rw [hB] at this
      exact this
    by_cases h1 : st1.cancelled = true
    · simp only [h1, if_true, reduceIte] at hp
      exact he1 p hp
    · simp only [Bool.not_eq_true] at h1
      simp only [h1, Bool.false_eq_true, if_false, reduceIte] at hp
      rcases hC : runChunks st1 b1 rest with ⟨st2, b2, e2⟩
      simp only [hC] at hp
      rcases List.mem_append.mp hp with hp1 | hp2
      · exact he1 p hp1
      · have := ih st1 b1 h1 p
        rw [hC] at this
        exact this hp2

/-- Claim C2 (corrected): terminal exclusivity, amended.  Every chunk the
generator yields after the `[DONE]` sentinel has been processed (yield
tag `true`) is the single final usage-summary chunk (it carries a
`generationInfo`); at most one such chunk exists.  In particular no text
delta is ever yielded after the sentinel — but the generator does NOT
yield nothing after it, see the counterexample. -/
theorem terminal_exclusivity_amended (cs : List Str) :
    ((processStreamT cs).1.filter (fun p => p.2)).all
      (fun p => p.1.generationInfo.isSome) = true ∧
    ((processStreamT cs).1.filter (fun p => p.2)).length ≤ 1 := by
  unfold processStreamT
  rcases h : runChunks ⟨none, false⟩ [] cs with ⟨st, buf, evs⟩
  have htags : ∀ p ∈ evs, p.2 = false := by
    have := runChunks_tags cs ⟨none, false⟩ [] rfl
    rw [h] at this
    exact this
  simp only [List.filter_append]
  have hevs : evs.filter (fun p => p.2) = [] := by
    rw [List.filter_eq_nil_iff]
    intro a ha
    simp [htags a ha]
  rw [hevs, List.nil_append]
  unfold epilogue
  rcases st.usageData with _ | u
  · simp
  · by_cases ht : jsTruthy u = true
    · simp only [ht, if_true, reduceIte]
      cases hcanc : st.cancelled
      · simp
      · simp [usageChunkOf]
    · simp [ht]

/-- Counterexample to claim C2 as stated: for a stream carrying a usage
frame before `[DONE]`, the generator yields the final usage chunk AFTER
the sentinel has been processed (its yield tag is `true`), so something
is observed after the terminating sentinel. -/
theorem terminal_exclusivity_counterexample :
    (processStreamT [usageThenDone]).1.map Prod.snd = [false, true] := rfl

/-- Claim C7 (code bug): evaluation at the failing input.  For a stream
with a text frame, a usage frame and the sentinel, the stream processor
records the usage (second conjunct), yet the aggregation returns
`usage = none`: `collectStreamResults` reads `generationInfo.usage` while
the usage chunk only carries `generationInfo.tokenUsage`, so the final
result's `llmOutput.usage` is always null, contradicting the claim. -/
theorem usage_aggregation_code_bug :
    generate [usageThenDone] = ⟨("Hello").data, none⟩ ∧
    (processStreamT [usageThenDone]).2.usageData = some usageThenDoneUsage :=
  ⟨rfl, rfl⟩

/-! ## Symbolic-frame lemmas for the malformed-frame scenario -/

theorem splitNL_noNL (a : Str) (h : noNL a = true) : splitNL a = [a] := by
  induction a with
  | nil => rfl
  | cons c t ih =>
    simp only [noNL, List.all_cons, Bool.and_eq_true] at h
    have hc : ¬ (c = '\n') := by
      intro e
      subst e
      simp at h
    simp only [splitNL, hc, if_false, reduceIte]
    rw [ih (by simp [noNL, h.2])]

theorem jsTrim_ws_cons (c : Char) (t : Str) (h : isWS c = true) :
    jsTrim (c :: t) = jsTrim t := by
  unfold jsTrim
  rw [List.dropWhile_cons, if_pos h]

theorem jsTrim_cons_ne (c : Char) (t : Str) (h : isWS c = false) :
    jsTrim (c :: t) ≠ [] := by
  unfold jsTrim
  rw [List.dropWhile_cons, if_neg (by simp [h])]
  intro he
  have h2 : (c :: t).reverse.dropWhile isWS = [] := by
    have := congrArg List.reverse he
    simpa using this
  rw [List.dropWhile_eq_nil_iff] at h2
  have := h2 c (by simp)
  rw [h] at this
  cases this

theorem findSub_noNL (a r : Str) (h : noNL a = true) :
    findSub ['\n', '\n'] (a ++ '\n' :: '\n' :: r) = some a.length := by
  induction a with
  | nil => rfl
  | cons c t ih =>
    simp only [noNL, List.all_cons, Bool.and_eq_true] at h
    have hc : (c == '\n') = false := by
      simpa using h.1
    rw [List.cons_append]
    unfold findSub
    rw [if_neg (by simp [strStartsWith, hc])]
    rw [ih (by simp [noNL, h.2])]
    rfl

theorem drop_append_add (a : Str) : ∀ (b : Str) (n : Nat),
    (a ++ b).drop (a.length + n) = b.drop n := by
  induction a with
  | nil =>
    intro b n
    simp
  | cons c t ih =>
    intro b n
    rw [List.cons_append, List.length_cons,
      show t.length + 1 + n = (t.length + n) + 1 from by omega,
      List.drop_succ_cons]
    exact ih b n

theorem splitBoundary_noNL (a r : Str) (h : noNL a = true) :
    splitBoundary (a ++ '\n' :: '\n' :: r) = some (a, r) := by
  unfold splitBoundary
  rw [findSub_noNL a r h]
  simp only
  rw [List.take_left a _, drop_append_add a ('\n' :: '\n' :: r) 2]
  rfl

theorem runLines_data_line (st : LoopSt) (p : Str) :
    runLinesT st [("data: ").data ++ p] =
      (match classifyData (jsTrim p) with
       | .done => ({ st with cancelled := true }, [])
       | .text d => (st, [(⟨d, none⟩, st.cancelled)])
       | .usage u => ({ st with usageData := u }, [])
       | .skip => (st, [])) := by
  simp only [runLinesT]
  rw [show strStartsWith (("data: ").data ++ p) (("data:").data) = true from rfl]
  rw [show ((("data: ").data ++ p).drop 5) = ' ' :: p from rfl]
  rw [jsTrim_ws_cons ' ' p rfl]
  simp only [if_true, reduceIte]

theorem rb_frame (fuel : Nat) (st : LoopSt) (p rest : Str)
    (hc : st.cancelled = false) (hp : noNL p = true)
    (hf : ((("data: ").data ++ p) ++ '\n' :: '\n' :: rest).length < fuel) :
    runBuffer fuel st ((("data: ").data ++ p) ++ '\n' :: '\n' :: rest) =
      (match classifyData (jsTrim p) with
       | .done => (⟨st.usageData, true⟩, rest, [])
       | .text d =>
         ((runBuffer (rest.length + 1) st rest).1,
          (runBuffer (rest.length + 1) st rest).2.1,
          (⟨d, none⟩, false) :: (runBuffer (rest.length + 1) st rest).2.2)
       | .usage u => runBuffer (rest.length + 1) ⟨u, false⟩ rest
       | .skip => runBuffer (rest.length + 1) st rest) := by
  have hlen : (("data: ").data ++ p).length + 2 + rest.length < fuel := by
    simp only [List.length_append, List.length_cons] at hf ⊢
    omega
  cases fuel with
  | zero => omega
  | succ f =>
    rw [runBuffer_succ]
    have hnoNL : noNL (("data: ").data ++ p) = true := by
      unfold noNL at hp ⊢
      rw [List.all_append]
      simp [hp]
    rw [splitBoundary_noNL _ _ hnoNL]
    simp only [hc, Bool.false_eq_true, if_false, reduceIte]
    have htrim : ¬ (jsTrim (("data: ").data ++ p) = []) := by
      have h2 := jsTrim_cons_ne 'd' (("ata: ").data ++ p) rfl
      intro he
      exact h2 (by rw [← he]; rfl)
    simp only [htrim, if_false, reduceIte]
    rw [splitNL_noNL _ hnoNL, runLines_data_line]
    have hfr : rest.length < f := by
      simp only [List.length_append] at hlen
      omega
    rcases hcl : classifyData (jsTrim p) with _ | d | u | _
    · simp
    · simp only [hc, Bool.false_eq_true, if_false, reduceIte]
      rw [rb_fuel f (rest.length + 1) st rest hfr (by omega)]
      rcases hB : runBuffer (rest.length + 1) st rest with ⟨a, b, c2⟩
      simp
    · simp only [hc, Bool.false_eq_true, if_false, reduceIte]
      rw [rb_fuel f (rest.length + 1) ⟨u, false⟩ rest hfr (by omega)]
      rcases hB : runBuffer (rest.length + 1) (⟨u, false⟩ : LoopSt) rest with ⟨a, b, c2⟩
      simp [hB]
    · simp only [hc, Bool.false_eq_true, if_false, reduceIte]
      rw [rb_fuel f (rest.length + 1) st rest hfr (by omega)]
      rcases hB : runBuffer (rest.length + 1) st rest with ⟨a, b, c2⟩
      simp

theorem sseFrame_assoc (p X : Str) :
    sseFrame p ++ X = ((("data: ").data ++ p)) ++ '\n' :: '\n' :: X := by
  unfold sseFrame
  simp [List.append_assoc]

/-- Claim C9 (confirmed): malformed-frame tolerance.  For every stream in
which a frame with an unparseable or undiscriminated payload `b` sits
between two valid text frames, processing still yields both text events
in order and still terminates at the `[DONE]` sentinel with no further
events: one bad frame never aborts the stream. -/
theorem malformed_frame_tolerance (p1 p2 b : Str) (d1 d2 : Option Json)
    (h1 : classifyData (jsTrim p1) = .text d1)
    (h2 : classifyData (jsTrim p2) = .text d2)
    (hb : classifyData (jsTrim b) = .skip)
    (n1 : noNL p1 = true) (n2 : noNL p2 = true) (nb : noNL b = true) :
    processStreamT [sseFrame p1 ++ (sseFrame b ++ (sseFrame p2 ++ sseFrame (("[DONE]").data)))] =
      ([(⟨d1, none⟩, false), (⟨d2, none⟩, false)], ⟨none, true⟩) := by
  unfold processStreamT
  simp only [runChunks, show (⟨none, false⟩ : LoopSt).cancelled = false from rfl,
    Bool.false_eq_true, if_false, reduceIte, List.nil_append]
  rw [sseFrame_assoc p1 _]
  rw [rb_frame _ _ p1 _ rfl n1 (Nat.lt_succ_self _), h1]
  simp only
  rw [sseFrame_assoc b _]
  rw [rb_frame _ _ b _ rfl nb (Nat.lt_succ_self _), hb]
  simp only
  rw [sseFrame_assoc p2 _]
  rw [rb_frame _ _ p2 _ rfl n2 (Nat.lt_succ_self _), h2]
  simp only
  rw [show sseFrame (("[DONE]").data) =
    ((("data: ").data ++ ("[DONE]").data)) ++ '\n' :: '\n' :: ([] : Str) from rfl]
  rw [rb_frame _ _ (("[DONE]").data) _ rfl rfl (Nat.lt_succ_self _)]
  rw [show classifyData (jsTrim ((("[DONE]")).data)) = DataAction.done from rfl]
  simp [epilogue]

/-- Witness for C9 at concrete payloads. -/
theorem malformed_frame_tolerance_witness :
    processStreamT [sseFrame p9a ++ (sseFrame b9 ++ (sseFrame p9b ++ sseFrame (("[DONE]").data)))] =
      ([(⟨some (.str ("A").data), none⟩, false), (⟨some (.str ("B").data), none⟩, false)],
       ⟨none, true⟩) :=
  malformed_frame_tolerance p9a p9b b9 _ _ rfl rfl rfl rfl rfl rfl
